import Mathlib

/-!
Verification of the advance-email-scraper repository.

The development shallowly embeds the core of the harvester
(src/advanced_email_v3.py, class KingHarvester; the free functions of
src/appv0.1.py are the same code) in Lean 4.  Text is modelled as
List Char; Python string methods are modelled character by character
for the ASCII range the program works with.  Python floats are
modelled as exact rationals: every confidence value the code builds is
a multiple of 1/20, so rational arithmetic agrees with the float
arithmetic of the source on all reachable values.
-/

/-- ASCII lower-casing of one character, as Python str.lower does on
the ASCII range (the only range the harvester's keyword tables and
domain names use): code points 65-90 shift up by 32. -/
def lowerChar (c : Char) : Char :=
  if 65 ≤ c.toNat ∧ c.toNat ≤ 90 then Char.ofNat (c.toNat + 32) else c

/-- ASCII upper-casing of one character, as Python str.upper does on
the ASCII range: code points 97-122 shift down by 32. -/
def upperChar (c : Char) : Char :=
  if 97 ≤ c.toNat ∧ c.toNat ≤ 122 then Char.ofNat (c.toNat - 32) else c

/-- Python text.lower() on a string modelled as a character list. -/
def pyLower (s : List Char) : List Char := s.map lowerChar

theorem toNat_ofNat_valid {n : Nat} (h : n.isValidChar) :
    (Char.ofNat n).toNat = n := by
  rw [Char.ofNat, dif_pos h]
  rfl

theorem lowerChar_eq_at {c : Char} : lowerChar c = '@' ↔ c = '@' := by
  unfold lowerChar
  split_ifs with h
  · constructor
    · intro he
      have hv : (c.toNat + 32).isValidChar := Or.inl (by omega)
      have h2 := congrArg Char.toNat he
      rw [toNat_ofNat_valid hv] at h2
      have h64 : Char.toNat '@' = 64 := rfl
      omega
    · intro he
      subst he
      simp at h
  · exact Iff.rfl

theorem mem_at_pyLower (l : List Char) : '@' ∈ pyLower l ↔ '@' ∈ l := by
  simp only [pyLower, List.mem_map]
  constructor
  · rintro ⟨a, ha, he⟩
    exact (lowerChar_eq_at.mp he) ▸ ha
  · intro h
    refine ⟨'@', h, ?_⟩
    exact lowerChar_eq_at.mpr rfl

/-- The suffix of a list after the last occurrence of sep; this is
what Python s.rsplit(sep, 1)[1] returns when sep occurs in s. -/
def takeAfterLast (sep : Char) (l : List Char) : List Char :=
  (l.reverse.takeWhile (fun c => c != sep)).reverse

theorem takeWhile_append_all {p : Char → Bool} {xs : List Char} (ys : List Char)
    (h : ∀ x ∈ xs, p x) : (xs ++ ys).takeWhile p = xs ++ ys.takeWhile p := by
  induction xs with
  | nil => simp
  | cons a l ih =>
    have ha : p a := h a (List.mem_cons_self a l)
    simp only [List.cons_append, List.takeWhile_cons_of_pos ha]
    rw [ih (fun x hx => h x (List.mem_cons_of_mem a hx))]

/-- If the last-at decomposition of a list is pre, dom then
takeAfterLast recovers dom. -/
theorem takeAfterLast_eq {pre dom : List Char} (hnot : '@' ∉ dom) :
    takeAfterLast '@' (pre ++ '@' :: dom) = dom := by
  unfold takeAfterLast
  rw [List.reverse_append]
  have hrev : ∀ x ∈ dom.reverse, (x != '@') = true := by
    intro x hx
    have hxne : x ≠ '@' := by
      intro he; exact hnot (he ▸ (List.mem_reverse.mp hx))
    simpa using hxne
  rw [show ('@' :: dom).reverse = dom.reverse ++ ['@'] by simp,
    List.append_assoc, takeWhile_append_all _ hrev]
  have hstop : (['@'] ++ pre.reverse).takeWhile (fun c => c != '@') = [] := by
    simp [List.takeWhile_cons]
  rw [hstop, List.append_nil, List.reverse_reverse]

/-- Every list containing an at-sign decomposes at its last at-sign,
with takeAfterLast returning the part after it. -/
theorem exists_last_at_decomp {l : List Char} (h : '@' ∈ l) :
    ∃ pre, l = pre ++ '@' :: takeAfterLast '@' l ∧ '@' ∉ takeAfterLast '@' l := by
  have hmemr : '@' ∈ l.reverse := List.mem_reverse.mpr h
  have hnilne : l.reverse.dropWhile (fun c => c != '@') ≠ [] := by
    intro hnil
    have h2 := (List.dropWhile_eq_nil_iff).mp hnil '@' hmemr
    simp at h2
  obtain ⟨c, t, hct⟩ := List.exists_cons_of_ne_nil hnilne
  have hc : (c != '@') = false := by
    have h3 := List.head?_dropWhile_not (fun c => c != '@') l.reverse
    rw [hct] at h3
    simpa using h3
  have hceq : c = '@' := by simpa using hc
  subst hceq
  have hsplit : l.reverse = l.reverse.takeWhile (fun c => c != '@') ++ '@' :: t := by
    conv_lhs => rw [← List.takeWhile_append_dropWhile
      (p := fun c => c != '@') (l := l.reverse), hct]
  have hldecomp : l = t.reverse ++ '@' ::
      (l.reverse.takeWhile (fun c => c != '@')).reverse := by
    have h4 := congrArg List.reverse hsplit
    rw [List.reverse_reverse, List.reverse_append] at h4
    simpa using h4
  refine ⟨t.reverse, ?_, ?_⟩
  · exact hldecomp
  · intro hmem
    have h5 : '@' ∈ l.reverse.takeWhile (fun c => c != '@') :=
      List.mem_reverse.mp hmem
    have h6 := List.mem_takeWhile_imp h5
    simp at h6

/- ==================== C1: Domain Scope Filter ====================
Embeds KingHarvester.is_target_domain (src/advanced_email_v3.py lines
236-240; identical to is_target_domain in src/appv0.1.py lines 75-81,
where base_domain is stored already lower-cased by the constructor):

    if '@' not in email: return False
    _, domain = email.lower().rsplit('@', 1)
    return domain == self.base_domain or domain.endswith('.' + self.base_domain)
-/

/-- KingHarvester.is_target_domain, with base the normalized
(lower-cased) base domain held by the harvester. -/
def is_target_domain (base email : List Char) : Bool :=
  if email.contains '@' then
    let dom := takeAfterLast '@' (pyLower email)
    (dom == base) || (('.' :: base).isSuffixOf dom)
  else
    false

/-- The scope rule as the specification words it: split the email on
its LAST at-sign, lower-case the domain part, and accept iff it equals
the base domain or ends with dot followed by the base domain. -/
def InScopeSpec (base email : List Char) : Prop :=
  ∃ pre dom, email = pre ++ '@' :: dom ∧ '@' ∉ dom ∧
    (pyLower dom = base ∨ ('.' :: base) <:+ pyLower dom)

theorem pyLower_last_at {pre dom : List Char} (hnot : '@' ∉ dom) :
    takeAfterLast '@' (pyLower (pre ++ '@' :: dom)) = pyLower dom := by
  have hat : lowerChar '@' = '@' := lowerChar_eq_at.mpr rfl
  have hdist : pyLower (pre ++ '@' :: dom) = pyLower pre ++ '@' :: pyLower dom := by
    simp [pyLower, hat]
  rw [hdist]
  exact takeAfterLast_eq (fun h => hnot ((mem_at_pyLower dom).mp h))

/-- C1: is_target_domain accepts exactly the scope rule of the spec,
and rejects every string with no at-sign.  As a total Lean function it
is pure and cannot raise. -/
theorem is_target_domain_spec (base email : List Char) :
    (is_target_domain base email = true ↔ InScopeSpec base email)
    ∧ (email.contains '@' = false → is_target_domain base email = false) := by
  constructor
  · constructor
    · intro htrue
      unfold is_target_domain at htrue
      by_cases hc : email.contains '@'
      · rw [if_pos hc] at htrue
        have hmem : '@' ∈ email := by simpa using hc
        have hmeml : '@' ∈ pyLower email := (mem_at_pyLower email).mpr hmem
        obtain ⟨pre, hdecomp, hnot⟩ := exists_last_at_decomp hmem
        refine ⟨pre, takeAfterLast '@' email, hdecomp, hnot, ?_⟩
        rw [hdecomp, pyLower_last_at hnot] at htrue
        rcases (Bool.or_eq_true _ _).mp htrue with h | h
        · exact Or.inl (by simpa using h)
        · exact Or.inr (by simpa using h)
      · rw [if_neg hc] at htrue
        exact absurd htrue (by simp)
    · rintro ⟨pre, dom, hdecomp, hnot, hdisj⟩
      have hmem : '@' ∈ email := by
        rw [hdecomp]; exact List.mem_append_right _ (List.mem_cons_self _ _)
      have hc : email.contains '@' = true := by simpa using hmem
      unfold is_target_domain
      rw [if_pos hc, hdecomp, pyLower_last_at hnot]
      rcases hdisj with h | h
      · simp [h]
      · simp [h]
  · intro hc
    unfold is_target_domain
    rw [hc]
    simp

/-- Concrete check of C1 at the spec's own examples: for base
univ.edu, an address at Admin.univ.edu is in scope and an address at
notuniv.edu is not; a string with no at-sign is rejected. -/
theorem is_target_domain_spec_witness :
    InScopeSpec ("univ.edu".data) ("X@Admin.univ.edu".data)
    ∧ is_target_domain ("univ.edu".data) ("a@notuniv.edu".data) = false
    ∧ is_target_domain ("univ.edu".data) ("no-at-sign".data) = false :=
  ⟨(is_target_domain_spec ("univ.edu".data) ("X@Admin.univ.edu".data)).1.mp (by decide),
   by decide,
   (is_target_domain_spec ("univ.edu".data) ("no-at-sign".data)).2 (by decide)⟩

/- ==================== Classification pipeline ====================
Embeds KingHarvester.classify_profile (src/advanced_email_v3.py lines
67-123) together with the keyword tables of lines 31-44.
-/

/-- The characters the whitespace class of the cleaning regex matches
in the ASCII range. -/
def isSpaceChar (c : Char) : Bool :=
  c = ' ' || c = '\t' || c = '\n' || c = '\r' || c = '\x0b' || c = '\x0c'

/-- Collapse every maximal run of whitespace into one space, as the
substitution of a whitespace-class-run by one space does.  The flag
records whether the previous character belonged to a whitespace run
already replaced. -/
def collapseWsAux : Bool → List Char → List Char
  | _, [] => []
  | inRun, c :: cs =>
    if isSpaceChar c then
      if inRun then collapseWsAux true cs else ' ' :: collapseWsAux true cs
    else c :: collapseWsAux false cs

/-- re.sub of a whitespace-class run by a single space. -/
def collapseWs (l : List Char) : List Char := collapseWsAux false l

/-- clean_text of classify_profile: lower-case, then collapse
whitespace runs to single spaces. -/
def cleanText (text : List Char) : List Char := collapseWs (pyLower text)

/-- SENIORITY_KEYWORDS of the source, in its iteration order. -/
def SENIORITY_KEYWORDS : List (String × List (List Char)) :=
  [("executive", ["director".data, "head".data, "dean".data, "chair".data,
      "provost".data, "vp".data, "vice president".data]),
   ("senior", ["professor".data, "principal".data, "lead".data, "chief".data,
      "manager".data, "coordinator".data]),
   ("mid", ["lecturer".data, "engineer".data, "specialist".data,
      "officer".data, "analyst".data]),
   ("junior", ["assistant".data, "trainee".data, "intern".data,
      "student".data, "researcher".data])]

/-- DEPT_KEYWORDS of the source, in its iteration order. -/
def DEPT_KEYWORDS : List (String × List (List Char)) :=
  [("Computer Science", ["cs".data, "computer".data, "software".data,
      "ai".data, "data".data, "it".data]),
   ("Electrical Engineering", ["eee".data, "electrical".data,
      "electronics".data, "power".data, "telecom".data]),
   ("Mechanical", ["me".data, "mechanical".data, "thermal".data,
      "automotive".data, "robotics".data]),
   ("Civil", ["ce".data, "civil".data, "construction".data,
      "structural".data, "environmental".data]),
   ("Admin", ["admission".data, "registrar".data, "finance".data,
      "hr".data, "library".data, "accounts".data])]

/-- Python substring containment: pat is a contiguous substring of the
second argument. -/
def isSubstr (pat : List Char) : List Char → Bool
  | [] => pat.isEmpty
  | c :: cs => pat.isPrefixOf (c :: cs) || isSubstr pat cs

/-- sum(1 for kw in keywords if kw in clean_text): the number of
keywords of the table entry that occur as substrings of the text. -/
def countPresent (kws : List (List Char)) (t : List Char) : Nat :=
  (kws.filter (fun kw => isSubstr kw t)).length

/-- The scoring loop of classify_profile: walk the keyword table in
order carrying (label, max_score); update both only on a strictly
greater score. -/
def pickBest (t : List Char) : List (String × List (List Char)) → String × Nat → String × Nat
  | [], acc => acc
  | p :: ps, acc =>
    if acc.2 < countPresent p.2 t then pickBest t ps (p.1, countPresent p.2 t)
    else pickBest t ps acc

/-- The maximum tier score over a keyword table. -/
def maxScore (t : List Char) : List (String × List (List Char)) → Nat
  | [] => 0
  | p :: ps => max (countPresent p.2 t) (maxScore t ps)

theorem pickBest_snd (t : List Char) (pairs : List (String × List (List Char))) :
    ∀ acc, (pickBest t pairs acc).2 = max acc.2 (maxScore t pairs) := by
  induction pairs with
  | nil => intro acc; simp [pickBest, maxScore]
  | cons p ps ih =>
    intro acc
    unfold pickBest maxScore
    split_ifs with h
    · rw [ih]
      simp only [Prod.snd]
      omega
    · rw [ih]
      omega

theorem pickBest_of_le (t : List Char) (pairs : List (String × List (List Char))) :
    ∀ acc, maxScore t pairs ≤ acc.2 → pickBest t pairs acc = acc := by
  induction pairs with
  | nil => intro acc _; rfl
  | cons p ps ih =>
    intro acc h
    unfold maxScore at h
    unfold pickBest
    rw [if_neg (by omega)]
    exact ih acc (by omega)

theorem pickBest_of_lt (t : List Char) (pairs : List (String × List (List Char))) :
    ∀ acc, acc.2 < maxScore t pairs →
      ∃ pre p suf, pairs = pre ++ p :: suf
        ∧ pickBest t pairs acc = (p.1, countPresent p.2 t)
        ∧ countPresent p.2 t = maxScore t pairs
        ∧ ∀ q ∈ pre, countPresent q.2 t < maxScore t pairs := by
  induction pairs with
  | nil => intro acc h; simp [maxScore] at h
  | cons p ps ih =>
    intro acc h
    unfold maxScore at h
    by_cases h1 : acc.2 < countPresent p.2 t
    · by_cases h2 : maxScore t ps ≤ countPresent p.2 t
      · refine ⟨[], p, ps, rfl, ?_, ?_, ?_⟩
        · unfold pickBest
          rw [if_pos h1]
          exact pickBest_of_le t ps _ (by simpa using h2)
        · unfold maxScore
          omega
        · intro q hq
          simp at hq
      · push_neg at h2
        obtain ⟨pre, q, suf, hps, hpick, hcnt, hpre⟩ :=
          ih (p.1, countPresent p.2 t) (by simpa using h2)
        refine ⟨p :: pre, q, suf, by rw [hps]; rfl, ?_, ?_, ?_⟩
        · unfold pickBest
          rw [if_pos h1]
          exact hpick
        · unfold maxScore
          omega
        · intro r hr
          unfold maxScore
          rcases List.mem_cons.mp hr with hrp | hrpre
          · subst hrp; omega
          · have := hpre r hrpre; omega
    · push_neg at h1
      have hM : acc.2 < maxScore t ps := by omega
      obtain ⟨pre, q, suf, hps, hpick, hcnt, hpre⟩ := ih acc hM
      refine ⟨p :: pre, q, suf, by rw [hps]; rfl, ?_, ?_, ?_⟩
      · unfold pickBest
        rw [if_neg (by omega)]
        exact hpick
      · unfold maxScore
        omega
      · intro r hr
        unfold maxScore
        rcases List.mem_cons.mp hr with hrp | hrpre
        · subst hrp; omega
        · have := hpre r hrpre; omega

/-- The separators of the local-part name heuristic. -/
def isSepChar (c : Char) : Bool := c = '.' || c = '_' || c = '-'

/-- Splitting on a character class, keeping empty fields, as re.split
with a character-class pattern does. -/
def splitOnP (p : Char → Bool) : List Char → List (List Char)
  | [] => [[]]
  | c :: cs =>
    match splitOnP p cs with
    | [] => [[]]
    | h :: t => if p c then [] :: h :: t else (c :: h) :: t

/-- Python str.capitalize: first character upper-cased, the rest
lower-cased. -/
def pyCapitalize : List Char → List Char
  | [] => []
  | c :: cs => upperChar c :: cs.map lowerChar

/-- The name heuristic of classify_profile lines 72-77: split the
local-part on dot, underscore, dash; if there are at least two fields
and the first two both have length above 1, join their capitalized
forms with a space, otherwise leave the name empty. -/
def extractName (email : List Char) : List Char :=
  let parts := splitOnP isSepChar (email.takeWhile (fun c => c != '@'))
  if 2 ≤ parts.length ∧ ∀ p ∈ parts.take 2, 1 < p.length then
    List.intercalate [' '] ((parts.take 2).map pyCapitalize)
  else []

/-- Lines of a text, as str.split with the newline separator. -/
def splitLines (text : List Char) : List (List Char) :=
  splitOnP (fun c => c = '\n') text

/-- First index at which pat occurs inside l, as str.index returns on
the guarded path. -/
def indexOfInfix (pat l : List Char) : Option Nat :=
  (List.range (l.length + 1)).find? (fun i => pat.isPrefixOf (l.drop i))

/-- Python str.strip on the modelled whitespace class. -/
def pyStrip (l : List Char) : List Char :=
  ((l.dropWhile isSpaceChar).reverse.dropWhile isSpaceChar).reverse

/-- KingHarvester._get_snippet lines 116-123: the stripped 200-char
window starting 100 before the email inside the first line whose
lower-casing contains the email; a placeholder when no line does. -/
def get_snippet (text email : List Char) : List Char :=
  match (splitLines text).find? (fun line => isSubstr email (pyLower line)) with
  | some line =>
    match indexOfInfix email (pyLower line) with
    | some i => pyStrip ((line.drop (i - 100)).take 200)
    | none => []
  | none => "Context not found".data

/-- The record classify_profile returns. -/
structure ClassifyResult where
  name : List Char
  seniority : String
  department : String
  confidence : Rat
  raw_snippet : List Char
deriving DecidableEq

/-- Increment of 0.2 when a name was inferred (line 99-100). -/
def incName (name : List Char) : Rat := if name ≠ [] then 2/10 else 0

/-- Increment of 0.15 when seniority is not unknown (line 101-102). -/
def incSen (sen : String × Nat) : Rat := if sen.1 ≠ "unknown" then 15/100 else 0

/-- Increment of 0.15 when department is not the default (line 103-104). -/
def incDep (dep : String × Nat) : Rat := if dep.1 ≠ "General" then 15/100 else 0

/-- Increment of 0.2 when combined keyword hits exceed 2 (line 105-106). -/
def incHits (sen dep : String × Nat) : Rat := if 2 < sen.2 + dep.2 then 2/10 else 0

/-- The confidence sum of classify_profile lines 97-106: baseline 0.3
plus the four fixed increments. -/
def rawConfidence (name : List Char) (sen dep : String × Nat) : Rat :=
  3/10 + incName name + incSen sen + incDep dep + incHits sen dep

/-- KingHarvester.classify_profile lines 67-114.  Floats are modelled
as exact rationals; all reachable confidence values are multiples of
1/20, on which float and rational arithmetic agree. -/
def classify_profile (text email : List Char) : ClassifyResult :=
  let clean_text := cleanText text
  let name := extractName email
  let sen := pickBest clean_text SENIORITY_KEYWORDS ("unknown", 0)
  let dep := pickBest clean_text DEPT_KEYWORDS ("General", 0)
  { name := name, seniority := sen.1, department := dep.1,
    confidence := min (rawConfidence name sen dep) ((19 : Rat)/20),
    raw_snippet := get_snippet text email }

/-- C4: classify_profile scores the seniority tiers in the fixed order
executive, senior, mid, junior, each tier scored by the number of its
keywords present in the lower-cased whitespace-normalized text; the
strictly highest score wins, a tie keeps the first tier that reached
the running maximum, and the result is unknown exactly when every tier
scores zero. -/
theorem classify_seniority_spec (text email : List Char) :
    ((classify_profile text email).seniority = "unknown"
        ↔ maxScore (cleanText text) SENIORITY_KEYWORDS = 0)
    ∧ (0 < maxScore (cleanText text) SENIORITY_KEYWORDS →
        ∃ pre p suf, SENIORITY_KEYWORDS = pre ++ p :: suf
          ∧ (classify_profile text email).seniority = p.1
          ∧ countPresent p.2 (cleanText text)
              = maxScore (cleanText text) SENIORITY_KEYWORDS
          ∧ ∀ q ∈ pre, countPresent q.2 (cleanText text)
              < maxScore (cleanText text) SENIORITY_KEYWORDS) := by
  have hsen : (classify_profile text email).seniority
      = (pickBest (cleanText text) SENIORITY_KEYWORDS ("unknown", 0)).1 := rfl
  constructor
  · constructor
    · intro hu
      by_contra hM
      have hpos : 0 < maxScore (cleanText text) SENIORITY_KEYWORDS :=
        Nat.pos_of_ne_zero hM
      obtain ⟨pre, p, suf, hps, hpick, hcnt, hpre⟩ :=
        pickBest_of_lt (cleanText text) SENIORITY_KEYWORDS ("unknown", 0)
          (by simpa using hpos)
      have hp : p ∈ SENIORITY_KEYWORDS := by
        rw [hps]; exact List.mem_append_right _ (List.mem_cons_self _ _)
      have hne : ∀ q ∈ SENIORITY_KEYWORDS, q.1 ≠ "unknown" := by decide
      apply hne p hp
      rw [← hu, hsen, hpick]
    · intro hM
      rw [hsen, pickBest_of_le (cleanText text) SENIORITY_KEYWORDS
        ("unknown", 0) (by simp [hM])]
  · intro hpos
    obtain ⟨pre, p, suf, hps, hpick, hcnt, hpre⟩ :=
      pickBest_of_lt (cleanText text) SENIORITY_KEYWORDS ("unknown", 0)
        (by simpa using hpos)
    exact ⟨pre, p, suf, hps, by rw [hsen, hpick], hcnt, hpre⟩

/-- Concrete check of C4: on a text scoring executive 2, mid 1, the
classifier picks a positive-max tier satisfying the first-max rule. -/
theorem classify_seniority_spec_witness :
    ∃ pre p suf, SENIORITY_KEYWORDS = pre ++ p :: suf
      ∧ (classify_profile ("dean provost lecturer".data) ("a@b.c".data)).seniority = p.1
      ∧ countPresent p.2 (cleanText "dean provost lecturer".data)
          = maxScore (cleanText "dean provost lecturer".data) SENIORITY_KEYWORDS
      ∧ ∀ q ∈ pre, countPresent q.2 (cleanText "dean provost lecturer".data)
          < maxScore (cleanText "dean provost lecturer".data) SENIORITY_KEYWORDS :=
  (classify_seniority_spec ("dean provost lecturer".data) ("a@b.c".data)).2 (by decide)

theorem intercalate_pair (s a b : List Char) :
    List.intercalate s [a, b] = a ++ s ++ b := by
  simp [List.intercalate]

/-- C5: the candidate name comes from the local-part split on dot,
underscore and dash; when the split has at least two fields and the
first two both have length above 1 the name is their capitalized forms
joined by a space, and the name is empty in every other case. -/
theorem extract_name_spec (text email : List Char) :
    ((classify_profile text email).name = extractName email)
    ∧ (∀ t1 t2 rest,
        splitOnP isSepChar (email.takeWhile (fun c => c != '@')) = t1 :: t2 :: rest →
        1 < t1.length → 1 < t2.length →
        extractName email = pyCapitalize t1 ++ ' ' :: pyCapitalize t2)
    ∧ (extractName email ≠ [] →
        ∃ t1 t2 rest,
          splitOnP isSepChar (email.takeWhile (fun c => c != '@')) = t1 :: t2 :: rest
          ∧ 1 < t1.length ∧ 1 < t2.length) := by
  refine ⟨rfl, ?_, ?_⟩
  · intro t1 t2 rest hparts h1 h2
    unfold extractName
    rw [hparts, if_pos]
    · have htake : (t1 :: t2 :: rest).take 2 = [t1, t2] := rfl
      rw [htake]
      simp only [List.map_cons, List.map_nil]
      rw [intercalate_pair]
      simp
    · constructor
      · simp
      · intro p hp
        have : p = t1 ∨ p = t2 := by
          simpa using hp
        rcases this with h | h <;> (subst h; assumption)
  · intro hne
    unfold extractName at hne
    dsimp only at hne
    split_ifs at hne with hcond
    · obtain ⟨hlen, hall⟩ := hcond
      rcases hps : splitOnP isSepChar (email.takeWhile (fun c => c != '@')) with
        _ | ⟨t1, _ | ⟨t2, rest⟩⟩
      · rw [hps] at hlen; simp at hlen
      · rw [hps] at hlen; simp at hlen
      · refine ⟨t1, t2, rest, rfl, ?_, ?_⟩
        · apply hall t1
          rw [hps]
          simp
        · apply hall t2
          rw [hps]
          simp
    · exact absurd rfl hne

/-- Concrete check of C5: the local part john.smith yields the name
John Smith. -/
theorem extract_name_spec_witness :
    extractName ("john.smith@univ.edu".data)
      = pyCapitalize ("john".data) ++ ' ' :: pyCapitalize ("smith".data)
    ∧ pyCapitalize ("john".data) ++ ' ' :: pyCapitalize ("smith".data)
      = "John Smith".data :=
  ⟨(extract_name_spec [] ("john.smith@univ.edu".data)).2.1
      ("john".data) ("smith".data) [] (by decide) (by decide) (by decide),
   by decide⟩

/-- C6: the confidence classify_profile returns always lies in the
closed interval between 3/10 and 19/20: it is the baseline 3/10 plus
the four non-negative fixed increments, clamped at 19/20. -/
theorem confidence_bounds (text email : List Char) :
    3/10 ≤ (classify_profile text email).confidence
    ∧ (classify_profile text email).confidence ≤ 19/20 := by
  have hc : (classify_profile text email).confidence
      = min (rawConfidence (extractName email)
          (pickBest (cleanText text) SENIORITY_KEYWORDS ("unknown", 0))
          (pickBest (cleanText text) DEPT_KEYWORDS ("General", 0))) ((19 : Rat)/20) := rfl
  rw [hc]
  constructor
  · apply le_min
    · unfold rawConfidence incName incSen incDep incHits
      split_ifs <;> norm_num
    · norm_num
  · exact min_le_right _ _

/- ==================== Record store ====================
Embeds the record-creation part of KingHarvester.scrape_page
(src/advanced_email_v3.py lines 263-300).  The profiles dict is an
association list; both the page-email loop and the document-email loop
insert only when the key is absent.  The set of emails a page or a
mined document yields is passed in explicitly, abstracting the regex
extraction; records built from page emails go through classify_profile
while records from mined documents carry the fixed attributes of lines
291-299.
-/

/-- One row of the profiles store (lines 268-276 and 291-299). -/
structure Profile where
  email : List Char
  name : List Char
  seniority : String
  department : String
  confidence : Rat
  source_url : List Char
  context_snippet : List Char
deriving DecidableEq

/-- round(x, 2) on the exact rational model. -/
def roundTo2 (q : Rat) : Rat := (round (q * 100) : Rat) / 100

/-- The record built for an email found in the page text (lines
268-276). -/
def pageProfile (html email url : List Char) : Profile :=
  let ai := classify_profile html email
  { email := email, name := ai.name, seniority := ai.seniority,
    department := ai.department, confidence := roundTo2 ai.confidence,
    source_url := url, context_snippet := ai.raw_snippet }

/-- The fixed record built for an email mined from a document (lines
291-299). -/
def docProfile (email durl : List Char) : Profile :=
  { email := email, name := [], seniority := "unknown",
    department := "General", confidence := 2/5,
    source_url := durl, context_snippet := "From document".data }

/-- The profiles dict, keyed by lower-cased email. -/
def Store := List (List Char × Profile)

/-- if email not in self.profiles: self.profiles[email] = data. -/
def insertIfAbsent (st : Store) (k : List Char) (v : Profile) : Store :=
  match List.lookup k st with
  | some _ => st
  | none => (k, v) :: st

/-- What one page contributes: its URL, its raw html, the in-scope
emails extracted from the html, and for each mined document its URL
with the in-scope emails extracted from it. -/
structure PageEvent where
  url : List Char
  html : List Char
  pageEmails : List (List Char)
  docs : List (List Char × List (List Char))

/-- The document loop of scrape_page lines 282-300: for each mined
document, insert the fixed document record for each of its emails
that is not yet a key. -/
def docsFold (docs : List (List Char × List (List Char))) (st : Store) : Store :=
  docs.foldl
    (fun s d => d.2.foldl (fun s' e => insertIfAbsent s' e (docProfile e d.1)) s) st

/-- The record-creation phase of scrape_page lines 263-300: first the
page-email loop, then the document loop. -/
def processPage (ev : PageEvent) (st : Store) : Store :=
  docsFold ev.docs
    (ev.pageEmails.foldl
      (fun s e => insertIfAbsent s e (pageProfile ev.html e ev.url)) st)

/-- A whole crawl, as the sequence of page events it processed. -/
def processAll (evs : List PageEvent) (st : Store) : Store :=
  evs.foldl (fun s ev => processPage ev s) st

theorem lookup_insertIfAbsent_of_some {st : Store} {k k' : List Char}
    {v : Profile} (h : List.lookup k st = some v) (v' : Profile) :
    List.lookup k (insertIfAbsent st k' v') = some v := by
  unfold insertIfAbsent
  match hl : List.lookup k' st with
  | some w => exact h
  | none =>
    rw [List.lookup_cons]
    have hne : (k == k') = false := by
      rw [beq_eq_false_iff_ne]
      intro he
      rw [he, hl] at h
      exact Option.noConfusion h
    rw [hne]
    exact h

theorem lookup_insertIfAbsent_of_ne {st : Store} {k k' : List Char}
    (h : k ≠ k') (v' : Profile) :
    List.lookup k (insertIfAbsent st k' v') = List.lookup k st := by
  unfold insertIfAbsent
  match hl : List.lookup k' st with
  | some w => rfl
  | none =>
    rw [List.lookup_cons]
    have hne : (k == k') = false := by rwa [beq_eq_false_iff_ne]
    rw [hne]

theorem lookup_foldl_insert_of_some {g : List Char → Profile}
    (emails : List (List Char)) {st : Store} {k : List Char} {v : Profile}
    (h : List.lookup k st = some v) :
    List.lookup k (emails.foldl (fun s e => insertIfAbsent s e (g e)) st) = some v := by
  induction emails generalizing st with
  | nil => exact h
  | cons e es ih => exact ih (lookup_insertIfAbsent_of_some h (g e))

theorem lookup_foldl_insert_of_not_mem {g : List Char → Profile}
    {emails : List (List Char)} {st : Store} {k : List Char}
    (h : k ∉ emails) :
    List.lookup k (emails.foldl (fun s e => insertIfAbsent s e (g e)) st)
      = List.lookup k st := by
  induction emails generalizing st with
  | nil => rfl
  | cons e es ih =>
    have hk : k ≠ e := fun he => h (he ▸ List.mem_cons_self e es)
    have hes : k ∉ es := fun he => h (List.mem_cons_of_mem e he)
    rw [List.foldl_cons, ih hes, lookup_insertIfAbsent_of_ne hk]

theorem lookup_foldl_insert_of_mem {g : List Char → Profile}
    {emails : List (List Char)} {st : Store} {k : List Char}
    (hmem : k ∈ emails) (habs : List.lookup k st = none) :
    List.lookup k (emails.foldl (fun s e => insertIfAbsent s e (g e)) st)
      = some (g k) := by
  induction emails generalizing st with
  | nil => exact absurd hmem (List.not_mem_nil k)
  | cons e es ih =>
    rw [List.foldl_cons]
    by_cases hke : k = e
    · subst hke
      have hins : List.lookup k (insertIfAbsent st k (g k)) = some (g k) := by
        unfold insertIfAbsent
        rw [habs, List.lookup_cons_self]
      exact lookup_foldl_insert_of_some es hins
    · have hes : k ∈ es := by
        rcases List.mem_cons.mp hmem with h | h
        · exact absurd h hke
        · exact h
      exact ih hes (by rw [lookup_insertIfAbsent_of_ne hke, habs])

theorem lookup_docsFold_of_some (docs : List (List Char × List (List Char)))
    {st : Store} {k : List Char} {v : Profile}
    (h : List.lookup k st = some v) :
    List.lookup k (docsFold docs st) = some v := by
  induction docs generalizing st with
  | nil => exact h
  | cons d ds ih =>
    exact ih (lookup_foldl_insert_of_some (g := fun e => docProfile e d.1) d.2 h)

theorem lookup_docsFold_mem (docs : List (List Char × List (List Char)))
    {st : Store} {e : List Char}
    (habs : List.lookup e st = none) (hdoc : ∃ d ∈ docs, e ∈ d.2) :
    ∃ d ∈ docs, e ∈ d.2 ∧
      List.lookup e (docsFold docs st) = some (docProfile e d.1) := by
  induction docs generalizing st with
  | nil => simp at hdoc
  | cons d ds ih =>
    rw [docsFold, List.foldl_cons]
    by_cases hin : e ∈ d.2
    · refine ⟨d, List.mem_cons_self d ds, hin, ?_⟩
      have h1 : List.lookup e
          (d.2.foldl (fun s' e' => insertIfAbsent s' e' (docProfile e' d.1)) st)
          = some (docProfile e d.1) :=
        lookup_foldl_insert_of_mem (g := fun e' => docProfile e' d.1) hin habs
      exact lookup_docsFold_of_some ds h1
    · have habs' : List.lookup e
          (d.2.foldl (fun s' e' => insertIfAbsent s' e' (docProfile e' d.1)) st)
          = none := by
        rw [lookup_foldl_insert_of_not_mem (g := fun e' => docProfile e' d.1) hin, habs]
      obtain ⟨d0, hd0, hdd⟩ := hdoc
      have hds : ∃ d' ∈ ds, e ∈ d'.2 := by
        rcases List.mem_cons.mp hd0 with h | h
        · exact absurd (h ▸ hdd) hin
        · exact ⟨d0, h, hdd⟩
      obtain ⟨d', hd', hin', hl⟩ := ih habs' hds
      exact ⟨d', List.mem_cons_of_mem d hd', hin', hl⟩

theorem lookup_processPage_of_some {ev : PageEvent} {st : Store}
    {k : List Char} {v : Profile} (h : List.lookup k st = some v) :
    List.lookup k (processPage ev st) = some v := by
  unfold processPage
  exact lookup_docsFold_of_some ev.docs
    (lookup_foldl_insert_of_some (g := fun e => pageProfile ev.html e ev.url)
      ev.pageEmails h)

theorem not_mem_keys_of_lookup_none {st : Store} {k : List Char}
    (h : List.lookup k st = none) : k ∉ st.map Prod.fst := by
  induction st with
  | nil => simp
  | cons p ps ih =>
    obtain ⟨k', v'⟩ := p
    rw [List.lookup_cons] at h
    intro hmem
    rcases List.mem_cons.mp hmem with hk | hk
    · rw [hk] at h
      simp at h
    · cases hbeq : (k == k') with
      | true =>
        rw [hbeq] at h
        simp at h
      | false =>
        rw [hbeq] at h
        simp only [] at h
        exact ih h hk

theorem nodup_insertIfAbsent {st : Store} {k : List Char} {v : Profile}
    (h : (st.map Prod.fst).Nodup) :
    ((insertIfAbsent st k v).map Prod.fst).Nodup := by
  unfold insertIfAbsent
  match hl : List.lookup k st with
  | some w => exact h
  | none =>
    simp only [List.map_cons]
    exact List.nodup_cons.mpr ⟨not_mem_keys_of_lookup_none hl, h⟩

theorem nodup_foldl_insert {g : List Char → Profile}
    (emails : List (List Char)) {st : Store}
    (h : (st.map Prod.fst).Nodup) :
    (((emails.foldl (fun s e => insertIfAbsent s e (g e)) st)).map Prod.fst).Nodup := by
  induction emails generalizing st with
  | nil => exact h
  | cons e es ih => exact ih (nodup_insertIfAbsent h)

theorem nodup_docsFold (docs : List (List Char × List (List Char)))
    {st : Store} (h : (st.map Prod.fst).Nodup) :
    ((docsFold docs st).map Prod.fst).Nodup := by
  induction docs generalizing st with
  | nil => exact h
  | cons d ds ih =>
    exact ih (nodup_foldl_insert (g := fun e => docProfile e d.1) d.2 h)

/-- C7: a record, once inserted under its email key, is never modified
by any later page or document sighting of the same email, and key
uniqueness of the store is preserved over the whole run. -/
theorem record_first_writer_wins (evs : List PageEvent) (store : Store) :
    (∀ k v, List.lookup k store = some v →
        List.lookup k (processAll evs store) = some v)
    ∧ ((store.map Prod.fst).Nodup →
        ((processAll evs store).map Prod.fst).Nodup) := by
  induction evs generalizing store with
  | nil => exact ⟨fun k v h => h, fun h => h⟩
  | cons ev evs ih =>
    constructor
    · intro k v h
      rw [processAll, List.foldl_cons]
      exact (ih (processPage ev store)).1 k v (lookup_processPage_of_some h)
    · intro h
      rw [processAll, List.foldl_cons]
      refine (ih (processPage ev store)).2 ?_
      unfold processPage
      exact nodup_docsFold ev.docs
        (nodup_foldl_insert (g := fun e => pageProfile ev.html e ev.url)
          ev.pageEmails h)

/-- A concrete pre-existing record used by the C7 witness. -/
def wProfile : Profile := docProfile ("a@x.y".data) ("https://x.y/d0.pdf".data)

/-- A later event that sights the same email again. -/
def wEvent : PageEvent :=
  ⟨"https://x.y/p".data, [], [],
    [(("https://x.y/d2.pdf").data, [("a@x.y").data])]⟩

/-- Concrete check of C7: re-sighting a@x.y through a later document
leaves its record untouched and the store keys stay unique. -/
theorem record_first_writer_wins_witness :
    List.lookup ("a@x.y".data)
      (processAll [wEvent] [(("a@x.y").data, wProfile)]) = some wProfile
    ∧ ((processAll [wEvent] [(("a@x.y").data, wProfile)]).map Prod.fst).Nodup :=
  ⟨(record_first_writer_wins [wEvent] [(("a@x.y").data, wProfile)]).1 _ _ (by rfl),
   (record_first_writer_wins [wEvent] [(("a@x.y").data, wProfile)]).2 (by decide)⟩

/-- C10: an email first seen through a mined document gets exactly the
fixed document record: empty name, unknown seniority, General
department, confidence 0.4, the document URL as source and the fixed
snippet; none of its fields comes from the page-text classification
pipeline. -/
theorem doc_record_attrs (ev : PageEvent) (store : Store) (e : List Char)
    (habs : List.lookup e store = none)
    (hpage : e ∉ ev.pageEmails)
    (hdoc : ∃ d ∈ ev.docs, e ∈ d.2) :
    ∃ d ∈ ev.docs, e ∈ d.2 ∧
      List.lookup e (processPage ev store) = some (docProfile e d.1)
      ∧ (docProfile e d.1).name = []
      ∧ (docProfile e d.1).seniority = "unknown"
      ∧ (docProfile e d.1).department = "General"
      ∧ (docProfile e d.1).confidence = 2/5
      ∧ (docProfile e d.1).source_url = d.1
      ∧ (docProfile e d.1).context_snippet = "From document".data := by
  unfold processPage
  have habs1 : List.lookup e
      (ev.pageEmails.foldl
        (fun s e' => insertIfAbsent s e' (pageProfile ev.html e' ev.url)) store)
      = none := by
    rw [lookup_foldl_insert_of_not_mem
      (g := fun e' => pageProfile ev.html e' ev.url) hpage, habs]
  obtain ⟨d, hd, hin, hl⟩ := lookup_docsFold_mem ev.docs habs1 hdoc
  exact ⟨d, hd, hin, hl, rfl, rfl, rfl, rfl, rfl, rfl⟩

/-- Concrete check of C10 on a one-document event over an empty
store. -/
theorem doc_record_attrs_witness :
    ∃ d ∈ wEvent.docs, ("a@x.y").data ∈ d.2 ∧
      List.lookup ("a@x.y".data) (processPage wEvent [])
        = some (docProfile ("a@x.y".data) d.1)
      ∧ (docProfile ("a@x.y".data) d.1).name = []
      ∧ (docProfile ("a@x.y".data) d.1).seniority = "unknown"
      ∧ (docProfile ("a@x.y".data) d.1).department = "General"
      ∧ (docProfile ("a@x.y".data) d.1).confidence = 2/5
      ∧ (docProfile ("a@x.y".data) d.1).source_url = d.1
      ∧ (docProfile ("a@x.y".data) d.1).context_snippet = "From document".data :=
  doc_record_attrs wEvent [] ("a@x.y".data) rfl (by decide)
    ⟨(("https://x.y/d2.pdf").data, [("a@x.y").data]), by decide, by decide⟩

/- ==================== Link and document discovery =================
Embeds the discovery part of KingHarvester.scrape_page: the document
regex of line 281 and the frontier-link block of lines 302-318.  The
href-attribute values found in the html are passed in as a list,
abstracting the shared href pattern of both regexes.
-/

/-- The recognized document extensions, lower-cased (line 281
alternation pdf, doc, docx, ppt, pptx, case-insensitive). -/
def docExts : List (List Char) :=
  [".pdf".data, ".doc".data, ".docx".data, ".ppt".data, ".pptx".data]

/-- Does the lower-cased value end in a recognized document
extension. -/
def endsWithDocExt (v : List Char) : Bool :=
  docExts.any (fun e => e.isSuffixOf (pyLower v))

/-- What the greedy unanchored document pattern of line 281 captures
from one href value: the longest prefix of the value ending
case-insensitively in a document extension; none if no prefix does. -/
def docCapture (v : List Char) : Option (List Char) :=
  (List.range (v.length + 1)).reverse.findSome?
    (fun k => if endsWithDocExt (v.take k) then some (v.take k) else none)

/-- The document candidates proposed from the href values of one page
(lines 281-282, before resolution and the already-scheduled check). -/
def docCandidates (raws : List (List Char)) : List (List Char) :=
  raws.filterMap docCapture

/-- raw.startswith http or https scheme (line 307). -/
def startsWithHttp (raw : List Char) : Bool :=
  ("http://".data).isPrefixOf raw || ("https://".data).isPrefixOf raw

/-- Strip the scheme marker of an absolute http(s) URL. -/
def dropScheme (u : List Char) : List Char :=
  if ("https://".data).isPrefixOf u then u.drop 8
  else if ("http://".data).isPrefixOf u then u.drop 7
  else u

/-- urlparse(u).netloc for the absolute http(s) URLs this crawler
builds: everything between the scheme marker and the next slash,
query or fragment delimiter. -/
def netlocOf (u : List Char) : List Char :=
  (dropScheme u).takeWhile (fun c => c != '/' && c != '?' && c != '#')

/-- The scheme marker of an absolute http(s) URL, slashes included. -/
def schemeMarker (u : List Char) : List Char :=
  if ("https://".data).isPrefixOf u then "https://".data
  else if ("http://".data).isPrefixOf u then "http://".data
  else []

/-- The scheme of an absolute http(s) URL with the colon only, which
is all urljoin keeps of the base for a protocol-relative reference. -/
def schemeColon (u : List Char) : List Char :=
  if ("https://".data).isPrefixOf u then "https:".data
  else if ("http://".data).isPrefixOf u then "http:".data
  else []

/-- urljoin(url, raw) for the startswith-slash branch of line 310: a
protocol-relative raw (leading double slash) brings its own host and
takes only the scheme of the base, while a root-relative raw takes
scheme and authority of the base followed by the raw path. -/
def urljoinRoot (base raw : List Char) : List Char :=
  if ("//".data).isPrefixOf raw then schemeColon base ++ raw
  else schemeMarker base ++ netlocOf base ++ raw

/-- The link resolution of lines 307-312: absolute http(s) links are
used as they are, links starting with a slash are resolved against the
page URL with urljoin, every other form is skipped. -/
def resolveHref (url raw : List Char) : Option (List Char) :=
  if startsWithHttp raw then some raw
  else if raw.head? = some '/' then some (urljoinRoot url raw) else none

/-- The host scope rule of line 315. -/
def hostInScope (base host : List Char) : Bool :=
  (host == base) || (('.' :: base).isSuffixOf host)

/-- The frontier (page) candidates proposed from the href values of
one page, lines 305-317: absolute http(s) links are kept as they are,
root-relative links are resolved against the page URL, all other forms
are skipped; the lower-cased host must be in scope and the URL not yet
visited.  The pages-below-ceiling gate of line 304 is the caller's. -/
def pageCandidates (base url : List Char) (visited : List (List Char))
    (raws : List (List Char)) : List (List Char) :=
  raws.filterMap (fun raw =>
    match resolveHref url raw with
    | none => none
    | some full =>
      if hostInScope base (pyLower (netlocOf full)) = true ∧ full ∉ visited then
        some full
      else none)

/-- C3 counterexample: an in-scope absolute link whose path ends in
.pdf is proposed as a document candidate AND as a page (frontier)
candidate — the claim that such a link is never also a page candidate
fails on this input. -/
theorem doc_link_routed_twice :
    docCapture ("https://docs.base.org/files/handbook.pdf".data)
      = some ("https://docs.base.org/files/handbook.pdf".data)
    ∧ ("https://docs.base.org/files/handbook.pdf".data)
        ∈ docCandidates [("https://docs.base.org/files/handbook.pdf".data)]
    ∧ ("https://docs.base.org/files/handbook.pdf".data)
        ∈ pageCandidates ("base.org".data) ("https://base.org/i.html".data) []
            [("https://docs.base.org/files/handbook.pdf".data)] := by
  refine ⟨by decide, by decide, by decide⟩

/-- C3 amended: a link ending in a document extension is always
proposed as a document candidate (captured whole); independently, any
link the resolver accepts — absolute kept as it is, root-relative or
protocol-relative resolved against the page URL — whose host is in
scope and whose resolution is unvisited is proposed as a page
candidate, document extension or not, so a link can be routed to both
output sets. -/
theorem link_routing_amended (base url : List Char)
    (visited raws : List (List Char)) (raw : List Char) (hmem : raw ∈ raws) :
    (endsWithDocExt raw = true →
      docCapture raw = some raw ∧ raw ∈ docCandidates raws)
    ∧ (∀ full, resolveHref url raw = some full →
        hostInScope base (pyLower (netlocOf full)) = true →
        full ∉ visited →
        full ∈ pageCandidates base url visited raws) := by
  constructor
  · intro hext
    have hcap : docCapture raw = some raw := by
      unfold docCapture
      rw [List.range_succ, List.reverse_append]
      have hf : (fun k => if endsWithDocExt (raw.take k) = true
          then some (raw.take k) else none) raw.length = some raw := by
        simp only [List.take_length]
        rw [if_pos hext]
      rw [List.reverse_singleton, List.singleton_append,
        List.findSome?_cons]
      simp only [List.take_length]
      rw [if_pos hext]
    refine ⟨hcap, ?_⟩
    exact List.mem_filterMap.mpr ⟨raw, hmem, hcap⟩
  · intro full hres hscope hvis
    apply List.mem_filterMap.mpr
    refine ⟨raw, hmem, ?_⟩
    rw [hres]
    simp only []
    rw [if_pos ⟨hscope, hvis⟩]

/-- Concrete check of the amended C3 on a second absolute document
link and on a root-relative document link: each lands in the document
candidates and (after resolution) in the page candidates. -/
theorem link_routing_amended_witness :
    (("https://docs.base.org/a.pdf".data)
        ∈ docCandidates [("https://docs.base.org/a.pdf".data)]
      ∧ ("https://docs.base.org/a.pdf".data)
        ∈ pageCandidates ("base.org".data) ("https://base.org/".data) []
            [("https://docs.base.org/a.pdf".data)])
    ∧ (("/files/x.pdf".data) ∈ docCandidates [("/files/x.pdf".data)]
      ∧ ("https://base.org/files/x.pdf".data)
        ∈ pageCandidates ("base.org".data) ("https://base.org/i.html".data) []
            [("/files/x.pdf".data)]) :=
  ⟨⟨((link_routing_amended ("base.org".data) ("https://base.org/".data) []
        [("https://docs.base.org/a.pdf".data)] ("https://docs.base.org/a.pdf".data)
        (by decide)).1 (by decide)).2,
    (link_routing_amended ("base.org".data) ("https://base.org/".data) []
        [("https://docs.base.org/a.pdf".data)] ("https://docs.base.org/a.pdf".data)
        (by decide)).2 ("https://docs.base.org/a.pdf".data)
        (by decide) (by decide) (by decide)⟩,
   ⟨((link_routing_amended ("base.org".data) ("https://base.org/i.html".data) []
        [("/files/x.pdf".data)] ("/files/x.pdf".data)
        (by decide)).1 (by decide)).2,
    (link_routing_amended ("base.org".data) ("https://base.org/i.html".data) []
        [("/files/x.pdf".data)] ("/files/x.pdf".data)
        (by decide)).2 ("https://base.org/files/x.pdf".data)
        (by decide) (by decide) (by decide)⟩⟩

/- ==================== Crawl scheduler, sequential view =============
Embeds the crawl loop of KingHarvester.crawl (lines 435-441) together
with the guard of scrape_page (lines 252-256) and the frontier block
(lines 302-317), with workers run to completion in order, which is one
admissible schedule of the cooperative scheduler.  The function links
maps a fetched page to the in-scope resolved links discovered on it,
abstracting fetch_with_evasion plus the href pattern.  Acceptance of
the definition by the termination checker is the termination of the
loop: the measure (ceiling - pages, frontier length) falls on every
iteration.
-/

/-- State of the sequential crawl: frontier queue, visited set, page
counter, and the list of URLs dispatched to a fetch. -/
structure CrawlSt where
  queue : List (List Char)
  visited : List (List Char)
  pages : Nat
  fetched : List (List Char)
deriving DecidableEq

/-- The crawl loop: while the queue is non-empty and the page counter
is below the ceiling, pop a URL; skip it if visited, otherwise mark it
visited, count and fetch it, and append its not-yet-visited links
(discovery itself is gated by pages < ceiling, line 304). -/
def crawlSeq (links : List Char → List (List Char)) (maxPages : Nat) :
    List (List Char) → List (List Char) → Nat → List (List Char) → CrawlSt
  | [], v, p, f => ⟨[], v, p, f⟩
  | u :: rest, v, p, f =>
    if hp : p < maxPages then
      if u ∈ v then crawlSeq links maxPages rest v p f
      else
        crawlSeq links maxPages
          (rest ++ (if p + 1 < maxPages then
            (links u).filter (fun l => !((u :: v).contains l)) else []))
          (u :: v) (p + 1) (u :: f)
    else ⟨u :: rest, v, p, f⟩
termination_by q _ p _ => (maxPages - p, q.length)
decreasing_by
  · apply Prod.Lex.right
    simp
  · apply Prod.Lex.left
    omega

/-- An arbitrarily large link graph: every page links to one fresh,
longer URL, so the frontier never drains. -/
def chainLinks (u : List Char) : List (List Char) := [u ++ ['a']]

theorem crawlSeq_stop (links : List Char → List (List Char)) (maxPages : Nat)
    (u : List Char) (rest v : List (List Char)) (p : Nat) (f : List (List Char))
    (h : maxPages ≤ p) :
    crawlSeq links maxPages (u :: rest) v p f = ⟨u :: rest, v, p, f⟩ := by
  unfold crawlSeq
  rw [dif_neg (by omega)]

theorem crawlSeq_pages_le (links : List Char → List (List Char)) (maxPages : Nat) :
    ∀ q v p f, p ≤ maxPages → (crawlSeq links maxPages q v p f).pages ≤ maxPages := by
  intro q v p f
  induction q, v, p, f using crawlSeq.induct links maxPages with
  | case1 v p f => intro h; unfold crawlSeq; exact h
  | case2 u rest v p f hp hv ih =>
    intro h
    unfold crawlSeq
    rw [dif_pos hp, if_pos hv]
    exact ih h
  | case3 u rest v p f hp hv ih =>
    intro h
    unfold crawlSeq
    rw [dif_pos hp, if_neg hv]
    exact ih (by omega)
  | case4 u rest v p f hp =>
    intro h
    unfold crawlSeq
    rw [dif_neg hp]
    exact h

theorem crawlSeq_fetched (links : List Char → List (List Char)) (maxPages : Nat) :
    ∀ q v p f, (crawlSeq links maxPages q v p f).pages + f.length
      = p + (crawlSeq links maxPages q v p f).fetched.length := by
  intro q v p f
  induction q, v, p, f using crawlSeq.induct links maxPages with
  | case1 v p f => unfold crawlSeq; simp
  | case2 u rest v p f hp hv ih =>
    unfold crawlSeq
    rw [dif_pos hp, if_pos hv]
    exact ih
  | case3 u rest v p f hp hv ih =>
    unfold crawlSeq
    rw [dif_pos hp, if_neg hv]
    simp only [dite_eq_ite, List.length_cons] at ih ⊢
    omega
  | case4 u rest v p f hp =>
    unfold crawlSeq
    rw [dif_neg hp]

/-- C8: the page counter never exceeds the ceiling; once the counter
has reached the ceiling the loop stops without a state change, so no
further fetch starts; the counter counts exactly the dispatched fetch
attempts; and on an arbitrarily large link graph with ceiling 5 the
crawl makes exactly 5 fetch attempts and terminates (the loop's
termination is the well-foundedness argument accepted with crawlSeq
itself). -/
theorem crawl_page_budget :
    (∀ (links : List Char → List (List Char)) (maxPages : Nat) q v p f,
        p ≤ maxPages → (crawlSeq links maxPages q v p f).pages ≤ maxPages)
    ∧ (∀ (links : List Char → List (List Char)) (maxPages : Nat) u rest v p f,
        maxPages ≤ p →
        crawlSeq links maxPages (u :: rest) v p f = ⟨u :: rest, v, p, f⟩)
    ∧ (∀ (links : List Char → List (List Char)) (maxPages : Nat) q v p f,
        (crawlSeq links maxPages q v p f).pages + f.length
          = p + (crawlSeq links maxPages q v p f).fetched.length)
    ∧ ((crawlSeq chainLinks 5 ["a".data] [] 0 []).pages = 5
        ∧ (crawlSeq chainLinks 5 ["a".data] [] 0 []).fetched.length = 5) := by
  refine ⟨crawlSeq_pages_le, ?_, crawlSeq_fetched, ?_⟩
  · intro links maxPages u rest v p f h
    exact crawlSeq_stop links maxPages u rest v p f h
  · constructor <;> simp [crawlSeq, chainLinks]

/-- Concrete check of C8 at the hypotheses: from counter 0 the result
respects the ceiling, and at a counter already at the ceiling the loop
exits with the state unchanged. -/
theorem crawl_page_budget_witness :
    (crawlSeq chainLinks 5 ["a".data] [] 0 []).pages ≤ 5
    ∧ crawlSeq chainLinks 5 ["a".data] [] 7 [] = ⟨["a".data], [], 7, []⟩ :=
  ⟨crawl_page_budget.1 chainLinks 5 ["a".data] [] 0 [] (by omega),
   crawl_page_budget.2.1 chainLinks 5 ("a".data) [] [] 7 [] (by omega)⟩

/- ==================== Crawl scheduler, concurrent view =============
Interleaving model of KingHarvester.crawl (lines 421-443) and
KingHarvester._worker / scrape_page (lines 445-449, 252-318) under the
single-threaded cooperative event loop: a step is one atomic segment
of code between suspension points.  The guard of scrape_page (lines
253-256: visited test, visited insert, page-counter increment) has no
await inside, so it is one step — this is the check-and-insert
atomicity the specification relies on.  A worker then awaits its fetch
(one step to complete, appending its discovered links, lines 446-448)
and the politeness sleep (line 449), after which the done-callback
removes it from the task set.  The loop body of crawl (lines 435-441)
spawns from the queue head while the loop condition holds and the
concurrency ceiling is not reached, and exits, returning from crawl,
when the condition fails.
-/

/-- Phases of one worker task between suspension points. -/
inductive WPhase
  | ready
  | fetching
  | resting
  | done
deriving DecidableEq

/-- One spawned worker task. -/
structure Worker where
  url : List Char
  phase : WPhase
deriving DecidableEq

/-- Scheduler state: frontier queue, visited set, page counter, the
spawned tasks, the trace of URLs dispatched to a fetch, and whether
crawl has returned from its loop. -/
structure Sched where
  queue : List (List Char)
  visited : List (List Char)
  pages : Nat
  workers : List Worker
  fetched : List (List Char)
  ended : Bool
deriving DecidableEq

/-- The number of workers still in the task set (the done-callback
discards a finished task, line 440). -/
def activeCount (ws : List Worker) : Nat :=
  (ws.filter (fun w => w.phase != WPhase.done)).length

/-- One atomic segment of the cooperative scheduler. -/
inductive SchedStep (maxPages conc : Nat) : Sched → Sched → Prop
  | spawn (s : Sched) (u : List Char) (rest : List (List Char))
      (hend : s.ended = false) (hq : s.queue = u :: rest)
      (hp : s.pages < maxPages) (hcap : activeCount s.workers < conc) :
      SchedStep maxPages conc s
        { s with queue := rest, workers := s.workers ++ [⟨u, WPhase.ready⟩] }
  | exitLoop (s : Sched) (hend : s.ended = false)
      (hcond : (s.queue = [] ∧ activeCount s.workers = 0) ∨ maxPages ≤ s.pages) :
      SchedStep maxPages conc s { s with ended := true }
  | guardSkip (s : Sched) (i : Nat) (u : List Char)
      (hw : s.workers.get? i = some ⟨u, WPhase.ready⟩)
      (hg : u ∈ s.visited ∨ maxPages ≤ s.pages) :
      SchedStep maxPages conc s
        { s with workers := s.workers.set i ⟨u, WPhase.resting⟩ }
  | guardFetch (s : Sched) (i : Nat) (u : List Char)
      (hw : s.workers.get? i = some ⟨u, WPhase.ready⟩)
      (hv : u ∉ s.visited) (hp : s.pages < maxPages) :
      SchedStep maxPages conc s
        { s with visited := u :: s.visited, pages := s.pages + 1,
                 fetched := u :: s.fetched,
                 workers := s.workers.set i ⟨u, WPhase.fetching⟩ }
  | fetchDone (s : Sched) (i : Nat) (u : List Char) (ls : List (List Char))
      (hw : s.workers.get? i = some ⟨u, WPhase.fetching⟩) :
      SchedStep maxPages conc s
        { s with queue := s.queue ++ ls,
                 workers := s.workers.set i ⟨u, WPhase.resting⟩ }
  | restDone (s : Sched) (i : Nat) (u : List Char)
      (hw : s.workers.get? i = some ⟨u, WPhase.resting⟩) :
      SchedStep maxPages conc s
        { s with workers := s.workers.set i ⟨u, WPhase.done⟩ }

/-- The initial state of crawl with a given seed frontier. -/
def initSched (seeds : List (List Char)) : Sched :=
  ⟨seeds, [], 0, [], [], false⟩

/-- Reachability from the initial state under any interleaving. -/
def SchedReach (maxPages conc : Nat) (seeds : List (List Char)) (s : Sched) : Prop :=
  Relation.ReflTransGen (SchedStep maxPages conc) (initSched seeds) s

/-- Invariant for at-most-once dispatch: the fetch trace has no
duplicates, and everything dispatched is in the visited set. -/
def FetchInv (s : Sched) : Prop :=
  s.fetched.Nodup ∧ ∀ u ∈ s.fetched, u ∈ s.visited

theorem fetchInv_step {maxPages conc : Nat} {s s' : Sched}
    (h : SchedStep maxPages conc s s') (hi : FetchInv s) : FetchInv s' := by
  cases h with
  | spawn u rest hend hq hp hcap => exact hi
  | exitLoop hend hcond => exact hi
  | guardSkip i u hw hg => exact hi
  | guardFetch i u hw hv hp =>
    refine ⟨List.nodup_cons.mpr ⟨fun hm => hv (hi.2 u hm), hi.1⟩, ?_⟩
    intro x hx
    rcases List.mem_cons.mp hx with hxu | hxf
    · exact hxu ▸ List.mem_cons_self u s.visited
    · exact List.mem_cons_of_mem u (hi.2 x hxf)
  | fetchDone i u ls hw => exact hi
  | restDone i u hw => exact hi

theorem count_le_one_of_nodup {l : List (List Char)} (h : l.Nodup)
    (u : List Char) : l.count u ≤ 1 := by
  induction l with
  | nil => simp
  | cons a as ih =>
    rcases List.nodup_cons.mp h with ⟨hna, hnd⟩
    rw [List.count_cons]
    by_cases hua : u = a
    · subst hua
      have hz : as.count u = 0 := List.count_eq_zero.mpr hna
      simp [hz]
    · have hau : ¬ a = u := fun he => hua he.symm
      have := ih hnd
      simp [hua, hau]
      omega

/-- C2: under every interleaving of every number of workers, every
concurrency ceiling and every seed list (including the same URL
discovered repeatedly), each URL is dispatched to a fetch at most
once: the visited check and insert happen in the same atomic segment,
before any suspension point. -/
theorem at_most_once_fetch (maxPages conc : Nat) (seeds : List (List Char))
    (s : Sched) (h : SchedReach maxPages conc seeds s) (u : List Char) :
    s.fetched.count u ≤ 1 := by
  have hInv : FetchInv s := by
    induction h with
    | refl => exact ⟨List.nodup_nil, by simp [initSched]⟩
    | tail hr hstep ih => exact fetchInv_step hstep ih
  exact count_le_one_of_nodup hInv.1 u

/-- The duplicated seed URL of the C2 witness run. -/
def uA : List Char := "https://a.a/".data

/-- The witness run after both duplicate workers passed the guard:
the first dispatched the fetch, the second skipped. -/
def S4 : Sched :=
  ⟨[], [uA], 1, [⟨uA, WPhase.fetching⟩, ⟨uA, WPhase.resting⟩], [uA], false⟩

/-- Concrete check of C2: the same URL seeded twice, both workers
spawned before either ran; the URL is fetched exactly once. -/
theorem at_most_once_fetch_witness :
    S4.fetched.count uA ≤ 1 ∧ S4.fetched.count uA = 1 := by
  have h01 : SchedStep 5 25 (initSched [uA, uA])
      ⟨[uA], [], 0, [⟨uA, WPhase.ready⟩], [], false⟩ :=
    SchedStep.spawn _ uA [uA] rfl rfl (by decide) (by decide)
  have h12 : SchedStep 5 25 (⟨[uA], [], 0, [⟨uA, WPhase.ready⟩], [], false⟩ : Sched)
      ⟨[], [], 0, [⟨uA, WPhase.ready⟩, ⟨uA, WPhase.ready⟩], [], false⟩ :=
    SchedStep.spawn _ uA [] rfl rfl (by decide) (by decide)
  have h23 : SchedStep 5 25
      (⟨[], [], 0, [⟨uA, WPhase.ready⟩, ⟨uA, WPhase.ready⟩], [], false⟩ : Sched)
      ⟨[], [uA], 1, [⟨uA, WPhase.fetching⟩, ⟨uA, WPhase.ready⟩], [uA], false⟩ :=
    SchedStep.guardFetch _ 0 uA rfl (by simp) (by decide)
  have h34 : SchedStep 5 25
      (⟨[], [uA], 1, [⟨uA, WPhase.fetching⟩, ⟨uA, WPhase.ready⟩], [uA], false⟩ : Sched)
      S4 :=
    SchedStep.guardSkip _ 1 uA rfl (Or.inl (List.mem_cons_self uA []))
  have hreach : SchedReach 5 25 [uA, uA] S4 :=
    Relation.ReflTransGen.tail
      (Relation.ReflTransGen.tail
        (Relation.ReflTransGen.tail
          (Relation.ReflTransGen.tail Relation.ReflTransGen.refl h01) h12) h23) h34
  exact ⟨at_most_once_fetch 5 25 [uA, uA] S4 hreach uA, by decide⟩

/-- The state of the C9 counterexample: crawl's loop condition failed
because the page ceiling 1 was reached, so crawl returned while the
fetching worker was still in flight. -/
def T3 : Sched := ⟨[], [uA], 1, [⟨uA, WPhase.fetching⟩], [uA], true⟩

/-- C9 counterexample: with ceiling 1 the loop exits as soon as the
counter reaches 1 — without draining — so a state is reachable in
which crawl has returned while a worker launched by it is still in
flight.  This refutes the claim that at the moment crawl returns no
worker is in flight whichever way the loop exited. -/
theorem ceiling_exit_leaves_inflight :
    SchedReach 1 25 [uA] T3 ∧ T3.ended = true ∧ activeCount T3.workers = 1 := by
  have h01 : SchedStep 1 25 (initSched [uA])
      (⟨[], [], 0, [⟨uA, WPhase.ready⟩], [], false⟩ : Sched) :=
    SchedStep.spawn _ uA [] rfl rfl (by decide) (by decide)
  have h12 : SchedStep 1 25 (⟨[], [], 0, [⟨uA, WPhase.ready⟩], [], false⟩ : Sched)
      (⟨[], [uA], 1, [⟨uA, WPhase.fetching⟩], [uA], false⟩ : Sched) :=
    SchedStep.guardFetch _ 0 uA rfl (by simp) (by decide)
  have h23 : SchedStep 1 25
      (⟨[], [uA], 1, [⟨uA, WPhase.fetching⟩], [uA], false⟩ : Sched) T3 :=
    SchedStep.exitLoop _ rfl (Or.inr (by decide))
  exact ⟨Relation.ReflTransGen.tail
    (Relation.ReflTransGen.tail
      (Relation.ReflTransGen.tail Relation.ReflTransGen.refl h01) h12) h23,
    rfl, by decide⟩

/-- Once crawl has returned, either the ceiling was reached or no
worker is in flight. -/
def EndInv (maxPages : Nat) (s : Sched) : Prop :=
  s.ended = true → maxPages ≤ s.pages ∨ activeCount s.workers = 0

theorem activeCount_pos {ws : List Worker} {i : Nat} {u : List Char}
    {ph : WPhase} (hw : ws.get? i = some ⟨u, ph⟩) (hph : ph ≠ WPhase.done) :
    0 < activeCount ws := by
  have hmem : (⟨u, ph⟩ : Worker) ∈ ws :=
    List.getElem?_mem (List.get?_eq_getElem? ws i ▸ hw)
  exact List.length_pos_of_mem (List.mem_filter.mpr ⟨hmem, by simpa using hph⟩)

theorem endInv_step {maxPages conc : Nat} {s s' : Sched}
    (h : SchedStep maxPages conc s s') (hi : EndInv maxPages s) :
    EndInv maxPages s' := by
  cases h with
  | spawn u rest hend hq hp hcap =>
    intro he
    dsimp only at he
    rw [hend] at he
    exact Bool.noConfusion he
  | exitLoop hend hcond =>
    intro _
    dsimp only
    rcases hcond with ⟨_, ha⟩ | hp
    · exact Or.inr ha
    · exact Or.inl hp
  | guardSkip i u hw hg =>
    intro he
    dsimp only at he ⊢
    rcases hi he with hple | ha
    · exact Or.inl hple
    · exact absurd (activeCount_pos hw (by decide)) (by omega)
  | guardFetch i u hw hv hp =>
    intro he
    dsimp only at he
    rcases hi he with hple | ha
    · exact absurd hple (by omega)
    · exact absurd (activeCount_pos hw (by decide)) (by omega)
  | fetchDone i u ls hw =>
    intro he
    dsimp only at he ⊢
    rcases hi he with hple | ha
    · exact Or.inl hple
    · exact absurd (activeCount_pos hw (by decide)) (by omega)
  | restDone i u hw =>
    intro he
    dsimp only at he ⊢
    rcases hi he with hple | ha
    · exact Or.inl hple
    · exact absurd (activeCount_pos hw (by decide)) (by omega)

/-- C9 amended: in a frontier-drained exit (the loop ends with the
page counter still below the ceiling) no worker launched by crawl is
in flight at the moment crawl returns; a ceiling exit returns
immediately and may leave workers in flight. -/
theorem drain_exit_no_inflight (maxPages conc : Nat) (seeds : List (List Char))
    (s : Sched) (h : SchedReach maxPages conc seeds s)
    (hend : s.ended = true) (hlt : s.pages < maxPages) :
    activeCount s.workers = 0 := by
  have hInv : EndInv maxPages s := by
    clear hend hlt
    induction h with
    | refl =>
      intro he
      exact absurd he (by simp [initSched])
    | tail hr hstep ih => exact endInv_step hstep ih
  rcases hInv hend with hple | ha
  · omega
  · exact ha

/-- The state after an immediate frontier-drained exit on an empty
seed list. -/
def D1 : Sched := ⟨[], [], 0, [], [], true⟩

/-- Concrete check of the amended C9: a drained run ends with no
in-flight worker. -/
theorem drain_exit_no_inflight_witness : activeCount D1.workers = 0 :=
  drain_exit_no_inflight 5 25 [] D1
    (Relation.ReflTransGen.tail Relation.ReflTransGen.refl
      (SchedStep.exitLoop _ rfl (Or.inl ⟨rfl, rfl⟩)))
    rfl (by decide)
